import Mathlib

/-!
Verification of the Quickwit ingester state core
(`quickwit-ingest/src/ingest_v2/state.rs` and `quickwit-proto/src/ingest/mod.rs`).

The in-memory maps (`FnvHashMap`) are embedded as association lists whose
insert replaces and whose remove erases the key, so lookup behaves exactly as
the hash map does.  The write-ahead log (the external `mrecordlog` crate) is a
black box; it is modelled from the spec (§6.2) as a finite map from queue ids
to offset ranges together with a set of queue ids on which I/O operations
fail.
-/

namespace QuickwitIngest

abbrev QueueId := String

/-- Association-list lookup, modelling `HashMap::get`. -/
def lookupKey {κ α : Type} [DecidableEq κ] (q : κ) : List (κ × α) → Option α
  | [] => none
  | (k, v) :: rest => if k = q then some v else lookupKey q rest

/-- Association-list removal, modelling `HashMap::remove`. -/
def eraseKey {κ α : Type} [DecidableEq κ] (q : κ) :
    List (κ × α) → List (κ × α)
  | [] => []
  | (k, v) :: rest => if k = q then eraseKey q rest else (k, v) :: eraseKey q rest

/-- Association-list insertion, modelling `HashMap::insert` (replaces any
existing binding of the key). -/
def insertKey {κ α : Type} [DecidableEq κ] (q : κ) (v : α)
    (l : List (κ × α)) : List (κ × α) :=
  (q, v) :: eraseKey q l

/-- In-place replacement of the value bound to a key, modelling an assignment
through `HashMap::get_mut`: the key order is untouched and an absent key
leaves the map unchanged. -/
def updateKey {κ α : Type} [DecidableEq κ] (q : κ) (v : α) :
    List (κ × α) → List (κ × α)
  | [] => []
  | (k, w) :: rest =>
    if k = q then (k, v) :: rest else (k, w) :: updateKey q v rest

/-- Key membership, modelling `HashMap::contains_key`. -/
def containsKey {κ α : Type} [DecidableEq κ] (q : κ) (l : List (κ × α)) :
    Bool :=
  (lookupKey q l).isSome

/-- Key list of a map, modelling `HashMap::keys`. -/
def keysOf {κ α : Type} (l : List (κ × α)) : List κ :=
  l.map Prod.fst

/-- Modelled from the spec (§3; `quickwit-proto` types module is not in the
sources): a position is either `Beginning` (below every offset) or an absolute
`Offset(u64)`, totally ordered, with an optional u64 projection. -/
inductive Position : Type where
  | beginning : Position
  | offset : Nat → Position
deriving DecidableEq, Repr

/-- Total order on positions: `Beginning` is below everything and offsets
compare as naturals. -/
def Position.le : Position → Position → Bool
  | .beginning, _ => true
  | .offset _, .beginning => false
  | .offset m, .offset n => decide (m ≤ n)

/-- Optional u64 projection of a position (`Position::as_u64` in the source):
`Beginning` has none. -/
def Position.as_u64 : Position → Option Nat
  | .beginning => none
  | .offset n => some n

/-- Shard lifecycle states, from `quickwit-proto/src/ingest/mod.rs`. -/
inductive ShardState : Type where
  | Unspecified : ShardState
  | Open : ShardState
  | Unavailable : ShardState
  | Closed : ShardState
deriving DecidableEq, Repr

/-- Modelled from the spec (§3; `ingest_v2/models.rs` is not in the sources):
the per-queue shard record with its state, replication position and truncation
position.  The role data is opaque to the core and omitted. -/
structure IngesterShard : Type where
  shard_state : ShardState
  replication_position_inclusive : Position
  truncation_position_inclusive : Position
deriving DecidableEq, Repr

/-- Modelled from the spec (§3): `IngesterShard::new_solo` builds a solo shard
from a state and the two positions. -/
def IngesterShard.new_solo (shard_state : ShardState)
    (replication_position_inclusive : Position)
    (truncation_position_inclusive : Position) : IngesterShard :=
  ⟨shard_state, replication_position_inclusive, truncation_position_inclusive⟩

/-- Modelled from the spec (§3): a rate tracker is an opaque pair of rate
limiter and rate meter, created and destroyed with its shard; its contents are
irrelevant to the core, so it is embedded as the unit type. -/
abbrev RateTracker := Unit

/-- Ingester lifecycle status, from the spec (§3; the proto `ingester` module
is not in the sources): `{Initializing, Ready, Failed}`. -/
inductive IngesterStatus : Type where
  | Initializing : IngesterStatus
  | Ready : IngesterStatus
  | Failed : IngesterStatus
deriving DecidableEq, Repr

/-- Errors surfaced by the ingest v2 API, from
`quickwit-proto/src/ingest/mod.rs` (`IngestV2Error`). -/
inductive IngestV2Error : Type where
  | Internal : String → IngestV2Error
  | ShardNotFound : String → IngestV2Error
  | Timeout : String → IngestV2Error
  | TooManyRequests : IngestV2Error
  | Unavailable : String → IngestV2Error
deriving DecidableEq, Repr

/-- Modelled from the spec (§6.2): the WAL is a finite map from queue ids to
their offset range `[first, last]` (`none` meaning the queue is empty),
together with the set of queue ids on which I/O operations fail. -/
structure Wal : Type where
  queues : List (QueueId × Option (Nat × Nat))
  ioFailures : List QueueId
deriving DecidableEq, Repr

/-- Truncation errors of the WAL (`mrecordlog::error::TruncateError`). -/
inductive TruncateErr : Type where
  | missingQueue : TruncateErr
  | ioError : TruncateErr
deriving DecidableEq, Repr

/-- Queue-deletion errors of the WAL (`mrecordlog::error::DeleteQueueError`). -/
inductive DeleteQueueErr : Type where
  | missingQueue : DeleteQueueErr
  | ioError : DeleteQueueErr
deriving DecidableEq, Repr

/-- Modelled from the spec (§6.2): effect of truncating a queue range up to an
offset inclusive: records at or below the offset disappear. -/
def truncRange : Option (Nat × Nat) → Nat → Option (Nat × Nat)
  | none, _ => none
  | some (first, last), o =>
    if o < first then some (first, last)
    else if last ≤ o then none
    else some (o + 1, last)

/-- Modelled from the spec (§6.2): `truncate(queue_id, upto)` fails with
`MissingQueue` on an absent queue, with `IoError` on a failing queue, and
otherwise removes all records up to the offset inclusive. -/
def Wal.truncate (w : Wal) (q : QueueId) (o : Nat) : Except TruncateErr Wal :=
  match lookupKey q w.queues with
  | none => .error .missingQueue
  | some r =>
    if q ∈ w.ioFailures then .error .ioError
    else .ok { w with queues := insertKey q (truncRange r o) w.queues }

/-- Modelled from the spec (§6.2): `delete_queue(queue_id)` fails with
`MissingQueue` on an absent queue, with `IoError` on a failing queue, and
otherwise removes the queue. -/
def Wal.delete_queue (w : Wal) (q : QueueId) : Except DeleteQueueErr Wal :=
  match lookupKey q w.queues with
  | none => .error .missingQueue
  | some _ =>
    if q ∈ w.ioFailures then .error .ioError
    else .ok { w with queues := eraseKey q w.queues }

/-- Modelled from the spec (§6.2): `force_delete_queue(queue_id)` fails only
with an I/O error and otherwise removes the queue. -/
def Wal.force_delete_queue (w : Wal) (q : QueueId) : Except Unit Wal :=
  if q ∈ w.ioFailures then .error ()
  else .ok { w with queues := eraseKey q w.queues }

/-- Modelled from the spec (§6.2): `position_range(queue_id)` is `none` iff
the queue is empty (or absent). -/
def queue_position_range (w : Wal) (q : QueueId) : Option (Nat × Nat) :=
  match lookupKey q w.queues with
  | none => none
  | some r => r

/-- In-memory registry of the ingester (`InnerIngesterState` in the source).
The replication-handle maps are opaque to every operation verified here and
are omitted; the status field and the two shard maps are kept. -/
structure InnerIngesterState : Type where
  shards : List (QueueId × IngesterShard)
  rate_trackers : List (QueueId × RateTracker)
  status : IngesterStatus
deriving DecidableEq, Repr

/-- Fully locked view of the state (`FullyLockedIngesterState` in the source):
the inner registry together with the WAL. -/
structure FullyLockedIngesterState : Type where
  inner : InnerIngesterState
  mrecordlog : Wal
deriving DecidableEq, Repr

/-- Embedding of `FullyLockedIngesterState::truncate_shard` (state.rs
lines 361-395). -/
def truncate_shard (s : FullyLockedIngesterState) (queue_id : QueueId)
    (truncate_up_to_position_inclusive : Position) : FullyLockedIngesterState :=
  match truncate_up_to_position_inclusive.as_u64 with
  | none => s
  | some truncate_up_to_offset_inclusive =>
    match lookupKey queue_id s.inner.shards with
    | none => s
    | some shard =>
      if Position.le truncate_up_to_position_inclusive
          shard.truncation_position_inclusive then s
      else
        match s.mrecordlog.truncate queue_id truncate_up_to_offset_inclusive with
        | .ok wal' =>
          { s with
            inner := { s.inner with
              shards := updateKey queue_id
                { shard with
                  truncation_position_inclusive :=
                    truncate_up_to_position_inclusive } s.inner.shards },
            mrecordlog := wal' }
        | .error .missingQueue =>
          { s with
            inner := { s.inner with
              shards := eraseKey queue_id s.inner.shards,
              rate_trackers := eraseKey queue_id s.inner.rate_trackers } }
        | .error .ioError => s

/-- Embedding of `FullyLockedIngesterState::delete_shard` (state.rs
lines 399-415). -/
def delete_shard (s : FullyLockedIngesterState) (queue_id : QueueId) :
    FullyLockedIngesterState :=
  if containsKey queue_id s.inner.shards = false then s
  else
    match s.mrecordlog.delete_queue queue_id with
    | .ok wal' =>
      { s with
        inner := { s.inner with
          shards := eraseKey queue_id s.inner.shards,
          rate_trackers := eraseKey queue_id s.inner.rate_trackers },
        mrecordlog := wal' }
    | .error .missingQueue =>
      { s with
        inner := { s.inner with
          shards := eraseKey queue_id s.inner.shards,
          rate_trackers := eraseKey queue_id s.inner.rate_trackers } }
    | .error .ioError => s

/-- One iteration of the recovery loop of `IngesterState::init` (state.rs
lines 194-225): a non-empty queue is registered as a closed solo shard with a
fresh rate tracker, an empty queue is force-deleted (skipped on I/O error). -/
def init_recover_step (s : FullyLockedIngesterState) (queue_id : QueueId) :
    FullyLockedIngesterState :=
  match queue_position_range s.mrecordlog queue_id with
  | some (first, last) =>
    let replication_position_inclusive := Position.offset last
    let truncation_position_inclusive :=
      if first = 0 then Position.beginning else Position.offset (first - 1)
    let solo_shard := IngesterShard.new_solo ShardState.Closed
      replication_position_inclusive truncation_position_inclusive
    { s with
      inner := { s.inner with
        shards := insertKey queue_id solo_shard s.inner.shards,
        rate_trackers := insertKey queue_id () s.inner.rate_trackers } }
  | none =>
    match s.mrecordlog.force_delete_queue queue_id with
    | .error _ => s
    | .ok wal' => { s with mrecordlog := wal' }

/-- Recovery part of `IngesterState::init` run on a freshly opened WAL: fold
the per-queue recovery step over the listed queues, starting from the empty
registry. -/
def init_recovery (wal : Wal) : FullyLockedIngesterState :=
  (keysOf wal.queues).foldl init_recover_step
    { inner := { shards := [], rate_trackers := [], status := .Initializing },
      mrecordlog := wal }

/-- Lifecycle view of the shared state: the published status together with
the WAL option slot (`None` before init completes). -/
structure LifecycleView : Type where
  status : IngesterStatus
  mrecordlog_slot : Option Wal
deriving DecidableEq, Repr

/-- Embedding of `IngesterState::lock_partially` (state.rs lines 249-264):
the gating performed on the status.  The returned guard carries no data in
this model. -/
def lockPartially (status : IngesterStatus) : Except IngestV2Error Unit :=
  if status = .Initializing then
    .error (.Internal "ingester is initializing")
  else if status = .Failed then
    .error (.Internal "failed to initialize ingester")
  else .ok ()

/-- Embedding of `IngesterState::lock_fully` (state.rs lines 266-292).  The
outer `Option` models the `expect` on the WAL slot: `none` is the panic that
would occur if the slot were still empty when mapped. -/
def lockFully (v : LifecycleView) : Option (Except IngestV2Error Wal) :=
  if v.status = .Initializing then
    some (.error (.Internal "ingester is initializing"))
  else if v.status = .Failed then
    some (.error (.Internal "failed to initialize ingester"))
  else
    match v.mrecordlog_slot with
    | none => none
    | some wal => some (.ok wal)

/-- Lock-acquisition events recorded by the trace model. -/
inductive LockEvent : Type where
  | acquireWal : LockEvent
  | acquireInner : LockEvent
deriving DecidableEq, Repr

/-- Lock-acquisition trace of `lock_fully` (state.rs lines 272-275): after the
status check it takes the WAL write lock and then the inner mutex; while
`Initializing` it returns before acquiring either lock. -/
def lockFully_lock_order (status : IngesterStatus) : List LockEvent :=
  if status = .Initializing then []
  else [.acquireWal, .acquireInner]

/-- Lock-acquisition trace of `IngesterState::init` (state.rs lines 154-155):
it takes the inner mutex first and the WAL write lock second. -/
def init_lock_order : List LockEvent :=
  [.acquireInner, .acquireWal]

/-- Predicate on a trace of a both-lock path: either no lock was taken, or
the WAL lock was acquired first and the inner lock second. -/
def acquires_wal_then_inner : List LockEvent → Bool
  | [] => true
  | [LockEvent.acquireWal, LockEvent.acquireInner] => true
  | _ => false

/-- Lifecycle states traversed by `IngesterState::init` (state.rs
lines 148-247), starting from the freshly constructed state
(`Initializing`, empty slot): on open failure it publishes `Failed` without
installing anything; on success it installs the recovered WAL into the slot
(line 232) and only then publishes `Ready` (line 233). -/
def init_lifecycle_states (open_result : Except Unit Wal) : List LifecycleView :=
  match open_result with
  | .error _ =>
    [⟨.Initializing, none⟩, ⟨.Failed, none⟩]
  | .ok wal =>
    let recovered := (init_recovery wal).mrecordlog
    [⟨.Initializing, none⟩,
     ⟨.Initializing, some recovered⟩,
     ⟨.Ready, some recovered⟩]

/-- Modelled from the spec (§3, §8 scenarios; the `quickwit-proto` types
module is not in the sources): a queue id is the colon-separated triple
`index_uid:source_id:shard_id`. -/
def queue_id_of (index_uid source_id shard_id : String) : QueueId :=
  index_uid ++ ":" ++ source_id ++ ":" ++ shard_id

/-- Split a character list on the colon separator. -/
def splitOnColon : List Char → List (List Char)
  | [] => [[]]
  | c :: rest =>
    if c = ':' then [] :: splitOnColon rest
    else
      match splitOnColon rest with
      | [] => [[c]]
      | seg :: segs => (c :: seg) :: segs

/-- Modelled from the spec (§3): `split_queue_id` parses a queue id back into
its three colon-separated components and fails on any other shape. -/
def split_queue_id (queue_id : QueueId) : Option (String × String × String) :=
  match (splitOnColon queue_id.toList).map (fun cs => String.mk cs) with
  | [index_uid, source_id, shard_id] => some (index_uid, source_id, shard_id)
  | _ => none

/-- Modelled from the spec (§6.1): one `(shard_id, publish position)` pair of
a truncation instruction. -/
structure ShardIdPosition : Type where
  shard_id : String
  publish_position_inclusive : Position
deriving DecidableEq, Repr

/-- Modelled from the spec (§6.1): a `ShardIds` message groups the shard ids
of one `(index_uid, source_id)` pair; emitted requests carry an empty
`shard_positions` vector. -/
structure ShardIds : Type where
  index_uid : String
  source_id : String
  shard_ids : List String
  shard_positions : List ShardIdPosition
deriving DecidableEq, Repr

/-- Modelled from the spec (§6.1): a `ShardIdPositions` message groups
truncation instructions of one `(index_uid, source_id)` pair. -/
structure ShardIdPositions : Type where
  index_uid : String
  source_id : String
  shard_positions : List ShardIdPosition
deriving DecidableEq, Repr

/-- Embedding of `ShardIds::queue_ids` (proto ingest/mod.rs lines 235-241). -/
def ShardIds.queue_ids (s : ShardIds) : List QueueId :=
  s.shard_ids.map (fun shard_id => queue_id_of s.index_uid s.source_id shard_id)

/-- Embedding of `ShardIdPositions::queue_id_positions` (proto ingest/mod.rs
lines 250-255). -/
def ShardIdPositions.queue_id_positions (s : ShardIdPositions) :
    List (QueueId × Position) :=
  s.shard_positions.map (fun sp =>
    (queue_id_of s.index_uid s.source_id sp.shard_id,
     sp.publish_position_inclusive))

/-- Request sent to `inspect_shards` (spec §6.1). -/
structure InspectShardsRequest : Type where
  shard_ids : List ShardIds
deriving DecidableEq, Repr

/-- Response of `inspect_shards` (spec §6.1). -/
structure InspectShardsResponse : Type where
  shards_to_delete : List ShardIds
  shards_to_truncate : List ShardIdPositions
deriving DecidableEq, Repr

/-- Parseable keys of the shard map, as `((index_uid, source_id), shard_id)`
entries in key order; unparseable queue ids are skipped (state.rs
lines 437-446). -/
def parsed_entries (shards : List (QueueId × IngesterShard)) :
    List ((String × String) × String) :=
  (keysOf shards).filterMap (fun queue_id =>
    match split_queue_id queue_id with
    | some (index_uid, source_id, shard_id) =>
      some ((index_uid, source_id), shard_id)
    | none => none)

/-- Grouping step of `inspect_shards`: push one shard id onto the entry of
its `(index_uid, source_id)` pair, creating the entry if absent (the
`entry().or_insert_with(Vec::new).push` of state.rs lines 442-445). -/
def push_shard_id (acc : List ((String × String) × List String))
    (key : String × String) (shard_id : String) :
    List ((String × String) × List String) :=
  match acc with
  | [] => [(key, [shard_id])]
  | (k, sids) :: rest =>
    if k = key then (k, sids ++ [shard_id]) :: rest
    else (k, sids) :: push_shard_id rest key shard_id

/-- Grouping of all parsed entries by `(index_uid, source_id)`. -/
def group_shard_ids (entries : List ((String × String) × String)) :
    List ((String × String) × List String) :=
  entries.foldl (fun acc e => push_shard_id acc e.1 e.2) []

/-- One group turned into a `ShardIds` message with an empty
`shard_positions` vector (state.rs lines 447-455). -/
def to_shard_ids_entry (e : (String × String) × List String) : ShardIds :=
  { index_uid := e.1.1
    source_id := e.1.2
    shard_ids := e.2
    shard_positions := [] }

/-- Embedding of the request construction of
`FullyLockedIngesterState::inspect_shards` (state.rs lines 431-459): group
the parseable keys of the shard map and emit one `ShardIds` entry per group
with an empty `shard_positions` vector. -/
def inspect_shards_request (shards : List (QueueId × IngesterShard)) :
    InspectShardsRequest :=
  { shard_ids := (group_shard_ids (parsed_entries shards)).map to_shard_ids_entry }

/-- Embedding of `FullyLockedIngesterState::repair_shards` (state.rs
lines 461-472): delete every instructed shard, then truncate every instructed
shard to its authoritative position. -/
def repair_shards (s : FullyLockedIngesterState)
    (resp : InspectShardsResponse) : FullyLockedIngesterState :=
  let s1 := resp.shards_to_delete.foldl
    (fun acc ids => ids.queue_ids.foldl (fun a q => delete_shard a q) acc) s
  resp.shards_to_truncate.foldl
    (fun acc ids =>
      ids.queue_id_positions.foldl
        (fun a qp => truncate_shard a qp.1 qp.2) acc) s1

/-- Operations of the core once `Ready`: the mutators reachable through the
full lock. -/
inductive CoreOp : Type where
  | truncate : QueueId → Position → CoreOp
  | delete : QueueId → CoreOp
  | repair : InspectShardsResponse → CoreOp

/-- Apply one core operation. -/
def apply_op (s : FullyLockedIngesterState) : CoreOp → FullyLockedIngesterState
  | .truncate q p => truncate_shard s q p
  | .delete q => delete_shard s q
  | .repair resp => repair_shards s resp

/-- Apply a sequence of core operations. -/
def run_ops (s : FullyLockedIngesterState) (ops : List CoreOp) :
    FullyLockedIngesterState :=
  ops.foldl apply_op s

/-- Whole `IngesterState::init` (state.rs lines 148-247) as a function of the
WAL open result and the control-plane inspect result: on open failure the
status becomes `Failed` and nothing is recovered; on success the queues are
recovered, the status becomes `Ready`, and repair runs with the inspect
response (an RPC failure leaves the recovered state untouched). -/
def init_core (open_result : Except Unit Wal)
    (inspect_result : Except Unit InspectShardsResponse) :
    FullyLockedIngesterState × IngesterStatus :=
  match open_result with
  | .error _ =>
    ({ inner := { shards := [], rate_trackers := [], status := .Failed },
       mrecordlog := { queues := [], ioFailures := [] } }, .Failed)
  | .ok wal =>
    let s := init_recovery wal
    let s' :=
      match inspect_result with
      | .error _ => s
      | .ok resp => repair_shards s resp
    (s', .Ready)

/-! Basic lemmas about positions and the association-list maps. -/

instance {ε α : Type} [DecidableEq ε] [DecidableEq α] :
    DecidableEq (Except ε α) := fun x y =>
  match x, y with
  | .ok a, .ok b =>
    if h : a = b then isTrue (by rw [h])
    else isFalse (by intro hc; cases hc; exact h rfl)
  | .ok _, .error _ => isFalse (by intro hc; cases hc)
  | .error _, .ok _ => isFalse (by intro hc; cases hc)
  | .error a, .error b =>
    if h : a = b then isTrue (by rw [h])
    else isFalse (by intro hc; cases hc; exact h rfl)

theorem Position.le_refl (a : Position) : Position.le a a = true := by
  cases a <;> simp [Position.le]

theorem Position.le_trans {a b c : Position} (hab : Position.le a b = true)
    (hbc : Position.le b c = true) : Position.le a c = true := by
  cases a <;> cases b <;> cases c <;> simp_all [Position.le] <;> omega

theorem Position.le_of_not_le {a b : Position} (h : Position.le a b = false) :
    Position.le b a = true := by
  cases a <;> cases b <;> simp_all [Position.le] <;> omega

theorem lookup_eraseKey_self {α : Type} (q : QueueId) (l : List (QueueId × α)) :
    lookupKey q (eraseKey q l) = none := by
  induction l with
  | nil => simp [lookupKey, eraseKey]
  | cons hd tl ih =>
    by_cases h : hd.1 = q <;> simp [lookupKey, eraseKey, h, ih]

theorem lookup_eraseKey_ne {α : Type} {p q : QueueId} (hne : p ≠ q)
    (l : List (QueueId × α)) : lookupKey p (eraseKey q l) = lookupKey p l := by
  have hqp : q ≠ p := fun h => hne h.symm
  induction l with
  | nil => simp [lookupKey, eraseKey]
  | cons hd tl ih =>
    by_cases h : hd.1 = q
    · simp [lookupKey, eraseKey, h, hqp, hne, ih]
    · by_cases h2 : hd.1 = p <;> simp [lookupKey, eraseKey, h, h2, hqp, hne, ih]

theorem lookup_insertKey_self {α : Type} (q : QueueId) (v : α)
    (l : List (QueueId × α)) : lookupKey q (insertKey q v l) = some v := by
  simp [insertKey, lookupKey]

theorem lookup_insertKey_ne {α : Type} {p q : QueueId} (hne : p ≠ q) (v : α)
    (l : List (QueueId × α)) :
    lookupKey p (insertKey q v l) = lookupKey p l := by
  have : q ≠ p := fun h => hne h.symm
  simp [insertKey, lookupKey, this, lookup_eraseKey_ne hne]

theorem contains_eraseKey_self {α : Type} (q : QueueId)
    (l : List (QueueId × α)) : containsKey q (eraseKey q l) = false := by
  simp [containsKey, lookup_eraseKey_self]

theorem containsKey_iff {α : Type} (q : QueueId) (l : List (QueueId × α)) :
    containsKey q l = true ↔ q ∈ keysOf l := by
  induction l with
  | nil => simp [containsKey, lookupKey, keysOf]
  | cons hd tl ih =>
    by_cases h : hd.1 = q
    · simp [containsKey, lookupKey, keysOf, h]
    · have hne : ¬q = hd.1 := fun hq => h hq.symm
      simp only [containsKey, lookupKey, keysOf, List.map_cons, List.mem_cons, h,
        if_false, hne, false_or]
      simpa [containsKey, keysOf] using ih

theorem lookup_mem_keys {α : Type} {q : QueueId} {l : List (QueueId × α)}
    {v : α} (h : lookupKey q l = some v) : q ∈ keysOf l := by
  have : containsKey q l = true := by simp [containsKey, h]
  exact (containsKey_iff q l).mp this

theorem lookup_mem {κ α : Type} [DecidableEq κ] {q : κ} {l : List (κ × α)}
    {v : α} (h : lookupKey q l = some v) : (q, v) ∈ l := by
  induction l with
  | nil => simp [lookupKey] at h
  | cons hd tl ih =>
    by_cases hq : hd.1 = q
    · simp [lookupKey, hq] at h
      subst hq; subst h
      exact List.mem_cons_self _ _
    · simp [lookupKey, hq] at h
      exact List.mem_cons_of_mem _ (ih h)

theorem lookup_updateKey_self {κ α : Type} [DecidableEq κ] {q : κ}
    {l : List (κ × α)} {w : α} (h : lookupKey q l = some w) (v : α) :
    lookupKey q (updateKey q v l) = some v := by
  induction l with
  | nil => simp [lookupKey] at h
  | cons hd tl ih =>
    by_cases hq : hd.1 = q
    · simp [updateKey, lookupKey, hq]
    · simp [updateKey, lookupKey, hq] at h ⊢
      exact ih h

theorem lookup_updateKey_ne {κ α : Type} [DecidableEq κ] {p q : κ}
    (hne : p ≠ q) (v : α) (l : List (κ × α)) :
    lookupKey p (updateKey q v l) = lookupKey p l := by
  have hqp : q ≠ p := fun h => hne h.symm
  induction l with
  | nil => rfl
  | cons hd tl ih =>
    by_cases hq : hd.1 = q
    · simp [updateKey, lookupKey, hq, hqp]
    · by_cases hp : hd.1 = p <;> simp [updateKey, lookupKey, hq, hp, hqp, hne, ih]

theorem keysOf_eraseKey_congr {κ α β : Type} [DecidableEq κ]
    {l1 : List (κ × α)} {l2 : List (κ × β)} (h : keysOf l1 = keysOf l2)
    (q : κ) : keysOf (eraseKey q l1) = keysOf (eraseKey q l2) := by
  induction l1 generalizing l2 with
  | nil =>
    have : l2 = [] := by
      cases l2 with
      | nil => rfl
      | cons hd2 tl2 => simp [keysOf] at h
    subst this; rfl
  | cons hd tl ih =>
    cases l2 with
    | nil => simp [keysOf] at h
    | cons hd2 tl2 =>
      simp only [keysOf, List.map_cons, List.cons.injEq] at h
      obtain ⟨h1, h2⟩ := h
      by_cases hq : hd.1 = q
      · have hq2 : hd2.1 = q := by rw [← h1]; exact hq
        simpa [eraseKey, hq, hq2] using ih h2
      · have hq2 : ¬hd2.1 = q := by rw [← h1]; exact hq
        simp only [eraseKey, hq, hq2, if_false, keysOf, List.map_cons]
        exact List.cons_eq_cons.mpr ⟨h1, ih h2⟩

theorem keysOf_insertKey {κ α : Type} [DecidableEq κ] (q : κ) (v : α)
    (l : List (κ × α)) : keysOf (insertKey q v l) = q :: keysOf (eraseKey q l) := by
  simp [insertKey, keysOf]

theorem keysOf_updateKey {κ α : Type} [DecidableEq κ] (q : κ) (v : α)
    (l : List (κ × α)) : keysOf (updateKey q v l) = keysOf l := by
  induction l with
  | nil => rfl
  | cons hd tl ih =>
    by_cases hq : hd.1 = q <;> simp [updateKey, keysOf, hq] <;>
      simpa [keysOf] using ih

/-- Generic preservation of a predicate along a left fold. -/
theorem foldl_preserves {σ β : Type} (P : σ → Prop) (f : σ → β → σ)
    (hf : ∀ s b, P s → P (f s b)) :
    ∀ (l : List β) (s : σ), P s → P (l.foldl f s) := by
  intro l
  induction l with
  | nil => intro s hs; exact hs
  | cons b tl ih => intro s hs; exact ih (f s b) (hf s b hs)

/-! Branch equations of `truncate_shard` and `delete_shard`, shared by the
claim theorems below. -/

theorem truncate_shard_beginning (s : FullyLockedIngesterState) (q : QueueId) :
    truncate_shard s q Position.beginning = s := by
  simp [truncate_shard, Position.as_u64]

theorem truncate_shard_of_none {s : FullyLockedIngesterState} {q : QueueId}
    (p : Position) (h : lookupKey q s.inner.shards = none) :
    truncate_shard s q p = s := by
  cases hp : p.as_u64 with
  | none => simp [truncate_shard, hp]
  | some o => simp [truncate_shard, hp, h]

theorem truncate_shard_of_le {s : FullyLockedIngesterState} {q : QueueId}
    {p : Position} {sh : IngesterShard}
    (hsh : lookupKey q s.inner.shards = some sh)
    (hle : Position.le p sh.truncation_position_inclusive = true) :
    truncate_shard s q p = s := by
  cases hp : p.as_u64 with
  | none => simp [truncate_shard, hp]
  | some o => simp [truncate_shard, hp, hsh, hle]

theorem truncate_shard_ok {s : FullyLockedIngesterState} {q : QueueId}
    {p : Position} {sh : IngesterShard} {o : Nat} {wal' : Wal}
    (hsh : lookupKey q s.inner.shards = some sh) (hp : p.as_u64 = some o)
    (hle : Position.le p sh.truncation_position_inclusive = false)
    (htr : s.mrecordlog.truncate q o = .ok wal') :
    truncate_shard s q p =
      { s with
        inner := { s.inner with
          shards := updateKey q
            { sh with truncation_position_inclusive := p } s.inner.shards },
        mrecordlog := wal' } := by
  simp [truncate_shard, hp, hsh, hle, htr]

theorem truncate_shard_missing {s : FullyLockedIngesterState} {q : QueueId}
    {p : Position} {sh : IngesterShard} {o : Nat}
    (hsh : lookupKey q s.inner.shards = some sh) (hp : p.as_u64 = some o)
    (hle : Position.le p sh.truncation_position_inclusive = false)
    (htr : s.mrecordlog.truncate q o = .error .missingQueue) :
    truncate_shard s q p =
      { s with
        inner := { s.inner with
          shards := eraseKey q s.inner.shards,
          rate_trackers := eraseKey q s.inner.rate_trackers } } := by
  simp [truncate_shard, hp, hsh, hle, htr]

theorem truncate_shard_io {s : FullyLockedIngesterState} {q : QueueId}
    {p : Position} {sh : IngesterShard} {o : Nat}
    (hsh : lookupKey q s.inner.shards = some sh) (hp : p.as_u64 = some o)
    (hle : Position.le p sh.truncation_position_inclusive = false)
    (htr : s.mrecordlog.truncate q o = .error .ioError) :
    truncate_shard s q p = s := by
  simp [truncate_shard, hp, hsh, hle, htr]

theorem delete_shard_ok {s : FullyLockedIngesterState} {q : QueueId}
    {wal' : Wal} (hc : containsKey q s.inner.shards = true)
    (hd : s.mrecordlog.delete_queue q = .ok wal') :
    delete_shard s q =
      { s with
        inner := { s.inner with
          shards := eraseKey q s.inner.shards,
          rate_trackers := eraseKey q s.inner.rate_trackers },
        mrecordlog := wal' } := by
  simp [delete_shard, hc, hd]

theorem delete_shard_missing {s : FullyLockedIngesterState} {q : QueueId}
    (hc : containsKey q s.inner.shards = true)
    (hd : s.mrecordlog.delete_queue q = .error .missingQueue) :
    delete_shard s q =
      { s with
        inner := { s.inner with
          shards := eraseKey q s.inner.shards,
          rate_trackers := eraseKey q s.inner.rate_trackers } } := by
  simp [delete_shard, hc, hd]

theorem delete_shard_io {s : FullyLockedIngesterState} {q : QueueId}
    (hd : s.mrecordlog.delete_queue q = .error .ioError) :
    delete_shard s q = s := by
  cases hc : containsKey q s.inner.shards with
  | false => simp [delete_shard, hc]
  | true => simp [delete_shard, hc, hd]

theorem delete_shard_of_not_contains {s : FullyLockedIngesterState}
    {q : QueueId} (h : containsKey q s.inner.shards = false) :
    delete_shard s q = s := by
  simp [delete_shard, h]

/-! Sample fixtures used by the witness theorems. -/

def sampleShard : IngesterShard :=
  IngesterShard.new_solo ShardState.Closed (Position.offset 4) Position.beginning

def sampleWal : Wal :=
  { queues := [("idx:src:1", some (0, 4))], ioFailures := [] }

def sampleState : FullyLockedIngesterState :=
  { inner :=
      { shards := [("idx:src:1", sampleShard)],
        rate_trackers := [("idx:src:1", ())],
        status := .Ready },
    mrecordlog := sampleWal }

def sampleWalTruncated : Wal :=
  { queues := [("idx:src:1", some (3, 4))], ioFailures := [] }

/-! C1: semantics of `truncate_shard`. -/

/-- C1: `truncate_shard(queue_id, up_to)` is a no-op when `up_to` is
`Beginning`, when the queue is not registered, or when the shard's truncation
position is already at least `up_to`; otherwise it calls the WAL truncate and
on success sets the truncation position to `up_to`, on `MissingQueue` removes
the shard and its rate tracker, and on an I/O error leaves all state
unchanged. -/
theorem truncate_shard_semantics (s : FullyLockedIngesterState) (q : QueueId)
    (p : Position) :
    (p = Position.beginning → truncate_shard s q p = s)
    ∧ (lookupKey q s.inner.shards = none → truncate_shard s q p = s)
    ∧ (∀ sh, lookupKey q s.inner.shards = some sh →
        Position.le p sh.truncation_position_inclusive = true →
        truncate_shard s q p = s)
    ∧ (∀ sh o wal', lookupKey q s.inner.shards = some sh →
        p.as_u64 = some o →
        Position.le p sh.truncation_position_inclusive = false →
        s.mrecordlog.truncate q o = .ok wal' →
        truncate_shard s q p =
          { s with
            inner := { s.inner with
              shards := updateKey q
                { sh with truncation_position_inclusive := p }
                s.inner.shards },
            mrecordlog := wal' })
    ∧ (∀ sh o, lookupKey q s.inner.shards = some sh →
        p.as_u64 = some o →
        Position.le p sh.truncation_position_inclusive = false →
        s.mrecordlog.truncate q o = .error .missingQueue →
        truncate_shard s q p =
          { s with
            inner := { s.inner with
              shards := eraseKey q s.inner.shards,
              rate_trackers := eraseKey q s.inner.rate_trackers } })
    ∧ (∀ sh o, lookupKey q s.inner.shards = some sh →
        p.as_u64 = some o →
        Position.le p sh.truncation_position_inclusive = false →
        s.mrecordlog.truncate q o = .error .ioError →
        truncate_shard s q p = s) :=
  ⟨fun h => h ▸ truncate_shard_beginning s q,
   fun h => truncate_shard_of_none p h,
   fun _ hsh hle => truncate_shard_of_le hsh hle,
   fun _ _ wal' hsh hp hle htr => truncate_shard_ok hsh hp hle htr,
   fun _ _ hsh hp hle htr => truncate_shard_missing hsh hp hle htr,
   fun _ _ hsh hp hle htr => truncate_shard_io hsh hp hle htr⟩

/-- C1 witness: truncating the sample shard to `Offset 2` takes the success
path and sets the truncation position. -/
theorem truncate_shard_semantics_witness :
    truncate_shard sampleState "idx:src:1" (Position.offset 2) =
      { sampleState with
        inner := { sampleState.inner with
          shards := updateKey "idx:src:1"
            { sampleShard with truncation_position_inclusive := Position.offset 2 }
            sampleState.inner.shards },
        mrecordlog := sampleWalTruncated } :=
  (truncate_shard_semantics sampleState "idx:src:1" (Position.offset 2)).2.2.2.1
    sampleShard 2 sampleWalTruncated (by decide) rfl (by decide) (by decide)

/-! C5: semantics and idempotence of `delete_shard`. -/

/-- C5: `delete_shard` is idempotent — the second of two successive calls is a
no-op; it returns without touching any state when the queue is not registered,
removes the shard and rate tracker on WAL-delete success or `MissingQueue`,
and on an I/O error leaves the in-memory state unchanged. -/
theorem delete_shard_idempotent (s : FullyLockedIngesterState) (q : QueueId) :
    delete_shard (delete_shard s q) q = delete_shard s q
    ∧ (containsKey q s.inner.shards = false → delete_shard s q = s)
    ∧ (∀ wal', containsKey q s.inner.shards = true →
        s.mrecordlog.delete_queue q = .ok wal' →
        delete_shard s q =
          { s with
            inner := { s.inner with
              shards := eraseKey q s.inner.shards,
              rate_trackers := eraseKey q s.inner.rate_trackers },
            mrecordlog := wal' })
    ∧ (containsKey q s.inner.shards = true →
        s.mrecordlog.delete_queue q = .error .missingQueue →
        delete_shard s q =
          { s with
            inner := { s.inner with
              shards := eraseKey q s.inner.shards,
              rate_trackers := eraseKey q s.inner.rate_trackers } })
    ∧ (s.mrecordlog.delete_queue q = .error .ioError →
        delete_shard s q = s) := by
  refine ⟨?_, fun h => delete_shard_of_not_contains h,
    fun wal' hc hd => delete_shard_ok hc hd,
    fun hc hd => delete_shard_missing hc hd,
    fun hd => delete_shard_io hd⟩
  cases hc : containsKey q s.inner.shards with
  | false => rw [delete_shard_of_not_contains hc, delete_shard_of_not_contains hc]
  | true =>
    cases hd : s.mrecordlog.delete_queue q with
    | ok wal' =>
      rw [delete_shard_ok hc hd]
      exact delete_shard_of_not_contains
        (by simp [containsKey, lookup_eraseKey_self])
    | error e =>
      cases e with
      | missingQueue =>
        rw [delete_shard_missing hc hd]
        exact delete_shard_of_not_contains
          (by simp [containsKey, lookup_eraseKey_self])
      | ioError => rw [delete_shard_io hd, delete_shard_io hd]

/-- C5 witness: deleting the sample shard removes it from the registry and
the WAL, and an unregistered queue id is a silent no-op. -/
theorem delete_shard_idempotent_witness :
    delete_shard sampleState "idx:src:1" =
      { sampleState with
        inner := { sampleState.inner with
          shards := eraseKey "idx:src:1" sampleState.inner.shards,
          rate_trackers := eraseKey "idx:src:1" sampleState.inner.rate_trackers },
        mrecordlog := { queues := [], ioFailures := [] } }
    ∧ delete_shard sampleState "other:src:9" = sampleState :=
  ⟨(delete_shard_idempotent sampleState "idx:src:1").2.2.1
      { queues := [], ioFailures := [] } (by decide) (by decide),
   (delete_shard_idempotent sampleState "other:src:9").2.1 (by decide)⟩

/-! C3: gating of the locking facade by the published status. -/

/-- C3: `lock_partially` and `lock_fully` fail with
`Internal("ingester is initializing")` exactly while the status is
`Initializing`, fail with `Internal("failed to initialize ingester")` exactly
when the status is `Failed`, and return a guard exactly when the status is
`Ready` (the WAL slot being installed, as init guarantees when `Ready`). -/
theorem lock_gating (status : IngesterStatus) (wal : Wal) :
    (lockPartially status = .error (.Internal "ingester is initializing")
      ↔ status = .Initializing)
    ∧ (lockPartially status = .error (.Internal "failed to initialize ingester")
      ↔ status = .Failed)
    ∧ (lockPartially status = .ok () ↔ status = .Ready)
    ∧ (lockFully ⟨status, some wal⟩
        = some (.error (.Internal "ingester is initializing"))
      ↔ status = .Initializing)
    ∧ (lockFully ⟨status, some wal⟩
        = some (.error (.Internal "failed to initialize ingester"))
      ↔ status = .Failed)
    ∧ (lockFully ⟨status, some wal⟩ = some (.ok wal) ↔ status = .Ready) := by
  cases status <;>
    refine ⟨by decide, by decide, by decide, ?_, ?_, ?_⟩ <;>
    simp [lockFully]

/-! C9: lock-acquisition order of the both-lock paths. -/

/-- C9 counterexample: `init` acquires the inner lock first and the WAL lock
second, so it is not true that every both-lock path acquires the WAL lock
first. -/
theorem init_lock_order_counterexample :
    init_lock_order = [LockEvent.acquireInner, LockEvent.acquireWal]
    ∧ acquires_wal_then_inner init_lock_order = false := by
  decide

/-- C9 amended: `lock_fully` acquires the WAL lock first and the inner lock
second (taking no lock at all while `Initializing`), while `init` acquires
the inner lock first and the WAL lock second. -/
theorem lock_order_amended :
    (∀ status : IngesterStatus,
      acquires_wal_then_inner (lockFully_lock_order status) = true)
    ∧ init_lock_order = [LockEvent.acquireInner, LockEvent.acquireWal] := by
  constructor
  · intro status; cases status <;> decide
  · rfl

/-! C10: the WAL slot is installed whenever the status is `Ready`. -/

/-- C10: along every lifecycle state traversed by `init`, a `Ready` status
implies the WAL slot is installed (init installs the log strictly before
publishing `Ready`, and the `Failed` path installs nothing), so the slot
dereference in `lock_fully` never fails. -/
theorem ready_implies_slot_installed (open_result : Except Unit Wal)
    (v : LifecycleView) (hmem : v ∈ init_lifecycle_states open_result) :
    (v.status = .Ready → v.mrecordlog_slot.isSome = true)
    ∧ (lockFully v).isSome = true := by
  cases open_result with
  | error e =>
    simp only [init_lifecycle_states, List.mem_cons, List.mem_singleton] at hmem
    rcases hmem with h | h | h
    · subst h; exact ⟨(fun h => nomatch h), by decide⟩
    · subst h; exact ⟨(fun h => nomatch h), by decide⟩
    · cases h
  | ok wal =>
    simp only [init_lifecycle_states, List.mem_cons, List.mem_singleton] at hmem
    rcases hmem with h | h | h | h
    · subst h; exact ⟨(fun h => nomatch h), by decide⟩
    · subst h; exact ⟨(fun h => nomatch h), by simp [lockFully]⟩
    · subst h; exact ⟨(fun _ => rfl), by simp [lockFully]⟩
    · cases h

/-- C10 witness: the final state of a successful init on the sample WAL is
`Ready` with the slot installed and `lock_fully` succeeding. -/
theorem ready_implies_slot_installed_witness :
    ((⟨.Ready, some (init_recovery sampleWal).mrecordlog⟩ : LifecycleView).status
        = .Ready →
      (⟨.Ready, some (init_recovery sampleWal).mrecordlog⟩
        : LifecycleView).mrecordlog_slot.isSome = true)
    ∧ (lockFully
        ⟨.Ready, some (init_recovery sampleWal).mrecordlog⟩).isSome = true :=
  ready_implies_slot_installed (.ok sampleWal)
    ⟨.Ready, some (init_recovery sampleWal).mrecordlog⟩
    (by simp [init_lifecycle_states])

/-! C6: the shard map and the rate-tracker map always have the same keys. -/

/-- Map parity invariant: the key lists of `shards` and `rate_trackers`
coincide. -/
def map_parity (s : FullyLockedIngesterState) : Prop :=
  keysOf s.inner.shards = keysOf s.inner.rate_trackers

theorem map_parity_truncate (s : FullyLockedIngesterState) (q : QueueId)
    (p : Position) (h : map_parity s) : map_parity (truncate_shard s q p) := by
  cases p with
  | beginning => rw [truncate_shard_beginning]; exact h
  | offset n =>
    cases hsh : lookupKey q s.inner.shards with
    | none => rw [truncate_shard_of_none _ hsh]; exact h
    | some sh =>
      cases hle : Position.le (Position.offset n)
          sh.truncation_position_inclusive with
      | true => rw [truncate_shard_of_le hsh hle]; exact h
      | false =>
        cases htr : s.mrecordlog.truncate q n with
        | ok wal' =>
          rw [truncate_shard_ok hsh (rfl : (Position.offset n).as_u64 = some n) hle htr]
          show keysOf (updateKey q _ s.inner.shards)
            = keysOf s.inner.rate_trackers
          rw [keysOf_updateKey]; exact h
        | error e =>
          cases e with
          | missingQueue =>
            rw [truncate_shard_missing hsh (rfl : (Position.offset n).as_u64 = some n) hle htr]
            exact keysOf_eraseKey_congr h q
          | ioError => rw [truncate_shard_io hsh (rfl : (Position.offset n).as_u64 = some n) hle htr]; exact h

theorem map_parity_delete (s : FullyLockedIngesterState) (q : QueueId)
    (h : map_parity s) : map_parity (delete_shard s q) := by
  cases hc : containsKey q s.inner.shards with
  | false => rw [delete_shard_of_not_contains hc]; exact h
  | true =>
    cases hd : s.mrecordlog.delete_queue q with
    | ok wal' =>
      rw [delete_shard_ok hc hd]
      exact keysOf_eraseKey_congr h q
    | error e =>
      cases e with
      | missingQueue =>
        rw [delete_shard_missing hc hd]
        exact keysOf_eraseKey_congr h q
      | ioError => rw [delete_shard_io hd]; exact h

theorem map_parity_repair (s : FullyLockedIngesterState)
    (resp : InspectShardsResponse) (h : map_parity s) :
    map_parity (repair_shards s resp) := by
  unfold repair_shards
  refine foldl_preserves map_parity _ ?_ _ _
    (foldl_preserves map_parity _ ?_ _ _ h)
  · intro s1 ids hs
    exact foldl_preserves map_parity _
      (fun a qp ha => map_parity_truncate a qp.1 qp.2 ha) _ _ hs
  · intro s1 ids hs
    exact foldl_preserves map_parity _
      (fun a q ha => map_parity_delete a q ha) _ _ hs

theorem map_parity_init_step (s : FullyLockedIngesterState) (q : QueueId)
    (h : map_parity s) : map_parity (init_recover_step s q) := by
  unfold init_recover_step
  cases hr : queue_position_range s.mrecordlog q with
  | some fl =>
    show keysOf (insertKey q _ s.inner.shards)
      = keysOf (insertKey q _ s.inner.rate_trackers)
    rw [keysOf_insertKey, keysOf_insertKey, keysOf_eraseKey_congr h q]
  | none =>
    cases hfd : s.mrecordlog.force_delete_queue q with
    | error e => exact h
    | ok wal' => exact h

theorem map_parity_init_core (open_result : Except Unit Wal)
    (inspect_result : Except Unit InspectShardsResponse) :
    map_parity (init_core open_result inspect_result).1 := by
  cases open_result with
  | error e => rfl
  | ok wal =>
    have hrec : map_parity (init_recovery wal) :=
      foldl_preserves map_parity _ map_parity_init_step _ _ rfl
    cases inspect_result with
    | error e => exact hrec
    | ok resp => exact map_parity_repair _ resp hrec

/-- C6: after init (recovery plus repair) and after any sequence of
truncate, delete and repair operations from a state with matching key sets,
the key set of `shards` equals the key set of `rate_trackers`. -/
theorem map_parity_invariant :
    (∀ (open_result : Except Unit Wal)
      (inspect_result : Except Unit InspectShardsResponse),
      keysOf (init_core open_result inspect_result).1.inner.shards
        = keysOf (init_core open_result inspect_result).1.inner.rate_trackers)
    ∧ (∀ (s : FullyLockedIngesterState) (ops : List CoreOp),
      keysOf s.inner.shards = keysOf s.inner.rate_trackers →
      keysOf (run_ops s ops).inner.shards
        = keysOf (run_ops s ops).inner.rate_trackers) := by
  constructor
  · exact map_parity_init_core
  · intro s ops h
    refine foldl_preserves map_parity _ ?_ ops s h
    intro s1 op hs
    cases op with
    | truncate q p => exact map_parity_truncate s1 q p hs
    | delete q => exact map_parity_delete s1 q hs
    | repair resp => exact map_parity_repair s1 resp hs

/-- C6 witness: deleting the sample shard keeps the two key sets equal. -/
theorem map_parity_invariant_witness :
    keysOf (run_ops sampleState [CoreOp.delete "idx:src:1"]).inner.shards
      = keysOf (run_ops sampleState [CoreOp.delete "idx:src:1"]).inner.rate_trackers :=
  map_parity_invariant.2 sampleState [CoreOp.delete "idx:src:1"] rfl
/-! C7: truncation positions never decrease for shards that stay registered. -/

/-- Relation between two states: every shard registered in the second was
registered in the first with a truncation position at most the new one. -/
def trunc_mono (s t : FullyLockedIngesterState) : Prop :=
  ∀ q sh', lookupKey q t.inner.shards = some sh' →
    ∃ sh, lookupKey q s.inner.shards = some sh ∧
      Position.le sh.truncation_position_inclusive
        sh'.truncation_position_inclusive = true

theorem trunc_mono_refl (s : FullyLockedIngesterState) : trunc_mono s s :=
  fun _ sh' h => ⟨sh', h, Position.le_refl _⟩

theorem trunc_mono_trans {s t u : FullyLockedIngesterState}
    (h1 : trunc_mono s t) (h2 : trunc_mono t u) : trunc_mono s u := by
  intro q sh'' h
  obtain ⟨sh', ht, hle2⟩ := h2 q sh'' h
  obtain ⟨sh, hs, hle1⟩ := h1 q sh' ht
  exact ⟨sh, hs, Position.le_trans hle1 hle2⟩

theorem trunc_mono_of_shards_erase {s t : FullyLockedIngesterState}
    {q : QueueId} (hsh : t.inner.shards = eraseKey q s.inner.shards) :
    trunc_mono s t := by
  intro q' sh' h'
  rw [hsh] at h'
  by_cases hq : q' = q
  · subst hq; rw [lookup_eraseKey_self] at h'; cases h'
  · rw [lookup_eraseKey_ne hq] at h'
    exact ⟨sh', h', Position.le_refl _⟩

theorem trunc_mono_of_shards_update {s t : FullyLockedIngesterState}
    {q : QueueId} {sh : IngesterShard} {p : Position}
    (hsh : lookupKey q s.inner.shards = some sh)
    (hle : Position.le p sh.truncation_position_inclusive = false)
    (ht : t.inner.shards = updateKey q
      { sh with truncation_position_inclusive := p } s.inner.shards) :
    trunc_mono s t := by
  intro q' sh' h'
  rw [ht] at h'
  by_cases hq : q' = q
  · subst hq
    rw [lookup_updateKey_self hsh] at h'
    obtain rfl := Option.some.inj h'
    exact ⟨sh, hsh, Position.le_of_not_le hle⟩
  · rw [lookup_updateKey_ne hq] at h'
    exact ⟨sh', h', Position.le_refl _⟩

theorem trunc_mono_truncate (s : FullyLockedIngesterState) (q : QueueId)
    (p : Position) : trunc_mono s (truncate_shard s q p) := by
  cases p with
  | beginning => rw [truncate_shard_beginning]; exact trunc_mono_refl s
  | offset n =>
    cases hsh : lookupKey q s.inner.shards with
    | none => rw [truncate_shard_of_none _ hsh]; exact trunc_mono_refl s
    | some sh =>
      cases hle : Position.le (Position.offset n)
          sh.truncation_position_inclusive with
      | true => rw [truncate_shard_of_le hsh hle]; exact trunc_mono_refl s
      | false =>
        cases htr : s.mrecordlog.truncate q n with
        | ok wal' =>
          rw [truncate_shard_ok hsh (rfl : (Position.offset n).as_u64 = some n)
            hle htr]
          exact trunc_mono_of_shards_update hsh hle rfl
        | error e =>
          cases e with
          | missingQueue =>
            rw [truncate_shard_missing hsh
              (rfl : (Position.offset n).as_u64 = some n) hle htr]
            exact trunc_mono_of_shards_erase rfl
          | ioError =>
            rw [truncate_shard_io hsh
              (rfl : (Position.offset n).as_u64 = some n) hle htr]
            exact trunc_mono_refl s

theorem trunc_mono_delete (s : FullyLockedIngesterState) (q : QueueId) :
    trunc_mono s (delete_shard s q) := by
  cases hc : containsKey q s.inner.shards with
  | false => rw [delete_shard_of_not_contains hc]; exact trunc_mono_refl s
  | true =>
    cases hd : s.mrecordlog.delete_queue q with
    | ok wal' =>
      rw [delete_shard_ok hc hd]
      exact trunc_mono_of_shards_erase rfl
    | error e =>
      cases e with
      | missingQueue =>
        rw [delete_shard_missing hc hd]
        exact trunc_mono_of_shards_erase rfl
      | ioError => rw [delete_shard_io hd]; exact trunc_mono_refl s

theorem trunc_mono_foldl {β : Type} (f : FullyLockedIngesterState → β →
    FullyLockedIngesterState) (hf : ∀ s b, trunc_mono s (f s b)) :
    ∀ (l : List β) (s : FullyLockedIngesterState),
      trunc_mono s (l.foldl f s) := by
  intro l
  induction l with
  | nil => intro s; exact trunc_mono_refl s
  | cons b tl ih =>
    intro s
    exact trunc_mono_trans (hf s b) (ih (f s b))

theorem trunc_mono_repair (s : FullyLockedIngesterState)
    (resp : InspectShardsResponse) : trunc_mono s (repair_shards s resp) := by
  unfold repair_shards
  have hdel : ∀ (s1 : FullyLockedIngesterState) (ids : ShardIds),
      trunc_mono s1 (ids.queue_ids.foldl (fun a q => delete_shard a q) s1) :=
    fun s1 ids =>
      trunc_mono_foldl (fun a q => delete_shard a q)
        (fun a q => trunc_mono_delete a q) ids.queue_ids s1
  have htru : ∀ (s1 : FullyLockedIngesterState) (ids : ShardIdPositions),
      trunc_mono s1 (ids.queue_id_positions.foldl
        (fun a qp => truncate_shard a qp.1 qp.2) s1) :=
    fun s1 ids =>
      trunc_mono_foldl (fun a qp => truncate_shard a qp.1 qp.2)
        (fun a qp => trunc_mono_truncate a qp.1 qp.2) ids.queue_id_positions s1
  exact trunc_mono_trans
    (trunc_mono_foldl _ hdel resp.shards_to_delete s)
    (trunc_mono_foldl _ htru resp.shards_to_truncate _)

theorem trunc_mono_run (s : FullyLockedIngesterState) (ops : List CoreOp) :
    trunc_mono s (run_ops s ops) := by
  refine trunc_mono_foldl apply_op ?_ ops s
  intro s1 op
  cases op with
  | truncate q p => exact trunc_mono_truncate s1 q p
  | delete q => exact trunc_mono_delete s1 q
  | repair resp => exact trunc_mono_repair s1 resp

/-- C7: across any sequence of operations, the truncation position of a shard
that stays registered never decreases, and `truncate_shard` either leaves the
shard untouched or assigns a position strictly greater than the current
truncation position. -/
theorem truncation_monotone :
    (∀ (s : FullyLockedIngesterState) (ops : List CoreOp) (q : QueueId)
      (sh sh' : IngesterShard),
      lookupKey q s.inner.shards = some sh →
      lookupKey q (run_ops s ops).inner.shards = some sh' →
      Position.le sh.truncation_position_inclusive
        sh'.truncation_position_inclusive = true)
    ∧ (∀ (s : FullyLockedIngesterState) (q : QueueId) (p : Position)
      (sh sh' : IngesterShard),
      lookupKey q s.inner.shards = some sh →
      lookupKey q (truncate_shard s q p).inner.shards = some sh' →
      sh' = sh ∨ (sh'.truncation_position_inclusive = p
        ∧ Position.le p sh.truncation_position_inclusive = false)) := by
  constructor
  · intro s ops q sh sh' hsh h'
    obtain ⟨sh0, hs0, hle⟩ := trunc_mono_run s ops q sh' h'
    rw [hsh] at hs0
    obtain rfl := Option.some.inj hs0
    exact hle
  · intro s q p sh sh' hsh h'
    cases p with
    | beginning =>
      rw [truncate_shard_beginning, hsh] at h'
      exact Or.inl (Option.some.inj h').symm
    | offset n =>
      cases hle : Position.le (Position.offset n)
          sh.truncation_position_inclusive with
      | true =>
        rw [truncate_shard_of_le hsh hle, hsh] at h'
        exact Or.inl (Option.some.inj h').symm
      | false =>
        cases htr : s.mrecordlog.truncate q n with
        | ok wal' =>
          rw [truncate_shard_ok hsh (rfl : (Position.offset n).as_u64 = some n)
            hle htr] at h'
          have h2 : lookupKey q (updateKey q
              { sh with truncation_position_inclusive := Position.offset n }
              s.inner.shards) = some sh' := h'
          rw [lookup_updateKey_self hsh] at h2
          obtain rfl := Option.some.inj h2
          exact Or.inr ⟨rfl, rfl⟩
        | error e =>
          cases e with
          | missingQueue =>
            rw [truncate_shard_missing hsh
              (rfl : (Position.offset n).as_u64 = some n) hle htr] at h'
            have h2 : lookupKey q (eraseKey q s.inner.shards) = some sh' := h'
            rw [lookup_eraseKey_self] at h2
            cases h2
          | ioError =>
            rw [truncate_shard_io hsh
              (rfl : (Position.offset n).as_u64 = some n) hle htr, hsh] at h'
            exact Or.inl (Option.some.inj h').symm

/-- C7 witness: truncating the sample shard to `Offset 2` raises its
truncation position from `Beginning`, which is monotone. -/
theorem truncation_monotone_witness :
    Position.le sampleShard.truncation_position_inclusive
      ({ sampleShard with truncation_position_inclusive := Position.offset 2 }
        : IngesterShard).truncation_position_inclusive = true :=
  truncation_monotone.1 sampleState
    [CoreOp.truncate "idx:src:1" (Position.offset 2)] "idx:src:1" sampleShard
    { sampleShard with truncation_position_inclusive := Position.offset 2 }
    (by decide) (by decide)

/-! C2: the truncation-position bound `truncation ≤ replication`. -/

/-- Per-entry truncation bound of a shard map entry. -/
def shard_bound_ok (e : QueueId × IngesterShard) : Bool :=
  Position.le e.2.truncation_position_inclusive
    e.2.replication_position_inclusive

/-- Truncation bound of a whole state: every registered shard has
`truncation_position_inclusive ≤ replication_position_inclusive`. -/
def trunc_le_repl (s : FullyLockedIngesterState) : Bool :=
  s.inner.shards.all shard_bound_ok

/-- Well-formedness of a truncate instruction against a state: the requested
position does not exceed the replication position of the target shard (if
any). -/
def trunc_instr_ok (s : FullyLockedIngesterState) (q : QueueId)
    (p : Position) : Bool :=
  match lookupKey q s.inner.shards with
  | some sh => Position.le p sh.replication_position_inclusive
  | none => true

/-- Well-formedness of the WAL ranges: `first ≤ last` for every non-empty
queue. -/
def wal_ranges_ok (w : Wal) : Bool :=
  w.queues.all (fun e =>
    match e.2 with
    | some fl => decide (fl.1 ≤ fl.2)
    | none => true)

theorem all_eraseKey {κ α : Type} [DecidableEq κ] {f : κ × α → Bool}
    {l : List (κ × α)} (h : l.all f = true) (q : κ) :
    (eraseKey q l).all f = true := by
  induction l with
  | nil => rfl
  | cons hd tl ih =>
    simp only [List.all_cons, Bool.and_eq_true] at h
    by_cases hq : hd.1 = q
    · simpa [eraseKey, hq] using ih h.2
    · simp only [eraseKey, hq, if_false, List.all_cons, Bool.and_eq_true]
      exact ⟨h.1, ih h.2⟩

theorem all_updateKey {κ α : Type} [DecidableEq κ] {f : κ × α → Bool}
    {l : List (κ × α)} (h : l.all f = true) {q : κ} {v : α}
    (hv : ∀ k, f (k, v) = true) : (updateKey q v l).all f = true := by
  induction l with
  | nil => rfl
  | cons hd tl ih =>
    simp only [List.all_cons, Bool.and_eq_true] at h
    by_cases hq : hd.1 = q
    · simp only [updateKey, hq, if_true, List.all_cons, Bool.and_eq_true]
      exact ⟨hv _, h.2⟩
    · simp only [updateKey, hq, if_false, List.all_cons, Bool.and_eq_true]
      exact ⟨h.1, ih h.2⟩

theorem all_insertKey {κ α : Type} [DecidableEq κ] {f : κ × α → Bool}
    {l : List (κ × α)} (h : l.all f = true) {q : κ} {v : α}
    (hv : f (q, v) = true) : (insertKey q v l).all f = true := by
  simp only [insertKey, List.all_cons, Bool.and_eq_true]
  exact ⟨hv, all_eraseKey h q⟩

theorem bound_delete (s : FullyLockedIngesterState) (q : QueueId)
    (h : trunc_le_repl s = true) : trunc_le_repl (delete_shard s q) = true := by
  cases hc : containsKey q s.inner.shards with
  | false => rw [delete_shard_of_not_contains hc]; exact h
  | true =>
    cases hd : s.mrecordlog.delete_queue q with
    | ok wal' =>
      rw [delete_shard_ok hc hd]
      exact all_eraseKey h q
    | error e =>
      cases e with
      | missingQueue =>
        rw [delete_shard_missing hc hd]
        exact all_eraseKey h q
      | ioError => rw [delete_shard_io hd]; exact h

theorem bound_truncate (s : FullyLockedIngesterState) (q : QueueId)
    (p : Position) (h : trunc_le_repl s = true)
    (hi : trunc_instr_ok s q p = true) :
    trunc_le_repl (truncate_shard s q p) = true := by
  cases p with
  | beginning => rw [truncate_shard_beginning]; exact h
  | offset n =>
    cases hsh : lookupKey q s.inner.shards with
    | none => rw [truncate_shard_of_none _ hsh]; exact h
    | some sh =>
      have hrepl : Position.le (Position.offset n)
          sh.replication_position_inclusive = true := by
        unfold trunc_instr_ok at hi
        rw [hsh] at hi
        exact hi
      cases hle : Position.le (Position.offset n)
          sh.truncation_position_inclusive with
      | true => rw [truncate_shard_of_le hsh hle]; exact h
      | false =>
        cases htr : s.mrecordlog.truncate q n with
        | ok wal' =>
          rw [truncate_shard_ok hsh (rfl : (Position.offset n).as_u64 = some n)
            hle htr]
          refine all_updateKey h ?_
          intro k
          simpa [shard_bound_ok] using hrepl
        | error e =>
          cases e with
          | missingQueue =>
            rw [truncate_shard_missing hsh
              (rfl : (Position.offset n).as_u64 = some n) hle htr]
            exact all_eraseKey h q
          | ioError =>
            rw [truncate_shard_io hsh
              (rfl : (Position.offset n).as_u64 = some n) hle htr]
            exact h

theorem bound_init_step (wal0 : Wal) (s : FullyLockedIngesterState)
    (q : QueueId)
    (h : trunc_le_repl s = true ∧ wal_ranges_ok s.mrecordlog = true) :
    trunc_le_repl (init_recover_step s q) = true
      ∧ wal_ranges_ok (init_recover_step s q).mrecordlog = true := by
  unfold init_recover_step
  cases hr : queue_position_range s.mrecordlog q with
  | some fl =>
    obtain ⟨f, l⟩ := fl
    have hlq : lookupKey q s.mrecordlog.queues = some (some (f, l)) := by
      unfold queue_position_range at hr
      cases hlq0 : lookupKey q s.mrecordlog.queues with
      | none => rw [hlq0] at hr; cases hr
      | some r =>
        rw [hlq0] at hr
        have hr' : r = some (f, l) := by simpa using hr
        rw [hr']
    have hmem := lookup_mem hlq
    have hfl : f ≤ l := by
      have := List.all_eq_true.mp h.2 _ hmem
      simpa using this
    refine ⟨?_, h.2⟩
    refine all_insertKey h.1 ?_
    by_cases hf : f = 0
    · simp [shard_bound_ok, IngesterShard.new_solo, hf, Position.le]
    · simp only [shard_bound_ok, IngesterShard.new_solo, hf, if_false]
      show Position.le (Position.offset (f - 1)) (Position.offset l) = true
      simp [Position.le]
      omega
  | none =>
    cases hfd : s.mrecordlog.force_delete_queue q with
    | error e => exact h
    | ok wal' =>
      refine ⟨h.1, ?_⟩
      have hw : wal'.queues = eraseKey q s.mrecordlog.queues := by
        unfold Wal.force_delete_queue at hfd
        by_cases hio : q ∈ s.mrecordlog.ioFailures
        · rw [if_pos hio] at hfd; cases hfd
        · rw [if_neg hio] at hfd
          obtain rfl := Except.ok.inj hfd
          rfl
      show wal'.queues.all _ = true
      rw [hw]
      exact all_eraseKey h.2 q

theorem bound_init (wal : Wal) (hw : wal_ranges_ok wal = true) :
    trunc_le_repl (init_recovery wal) = true := by
  have := foldl_preserves
    (fun s => trunc_le_repl s = true ∧ wal_ranges_ok s.mrecordlog = true)
    init_recover_step (fun s q hs => bound_init_step wal s q hs)
    (keysOf wal.queues)
    { inner := { shards := [], rate_trackers := [], status := .Initializing },
      mrecordlog := wal } ⟨rfl, hw⟩
  exact this.1

/-- C2 counterexample: starting from a state satisfying the bound, truncating
the sample shard to `Offset 9` — beyond its replication position `Offset 4` —
succeeds on the WAL and leaves a registered shard whose truncation position
exceeds its replication position. -/
theorem truncation_bound_counterexample :
    trunc_le_repl sampleState = true
    ∧ lookupKey "idx:src:1"
        (truncate_shard sampleState "idx:src:1" (Position.offset 9)).inner.shards
      = some { shard_state := ShardState.Closed,
               replication_position_inclusive := Position.offset 4,
               truncation_position_inclusive := Position.offset 9 }
    ∧ trunc_le_repl
        (truncate_shard sampleState "idx:src:1" (Position.offset 9)) = false := by
  decide

/-- C2 amended: init recovery establishes the bound
`truncation_position_inclusive ≤ replication_position_inclusive` for every
registered shard, `delete_shard` always preserves it, and `truncate_shard`
preserves it provided the requested position does not exceed the target
shard's replication position (the code performs no such check itself). -/
theorem truncation_bound_amended :
    (∀ wal : Wal, wal_ranges_ok wal = true →
      trunc_le_repl (init_recovery wal) = true)
    ∧ (∀ (s : FullyLockedIngesterState) (q : QueueId),
      trunc_le_repl s = true → trunc_le_repl (delete_shard s q) = true)
    ∧ (∀ (s : FullyLockedIngesterState) (q : QueueId) (p : Position),
      trunc_le_repl s = true → trunc_instr_ok s q p = true →
      trunc_le_repl (truncate_shard s q p) = true) :=
  ⟨bound_init, bound_delete, bound_truncate⟩

/-- C2 amended witness: truncating the sample shard to `Offset 2`, below its
replication position `Offset 4`, keeps the bound. -/
theorem truncation_bound_amended_witness :
    trunc_le_repl (truncate_shard sampleState "idx:src:1" (Position.offset 2))
      = true :=
  truncation_bound_amended.2.2 sampleState "idx:src:1" (Position.offset 2)
    (by decide) (by decide)

/-! C4: what init recovery does to each WAL queue. -/

theorem queue_position_range_eq {w : Wal} {q : QueueId}
    {r : Option (Nat × Nat)} (h : lookupKey q w.queues = some r) :
    queue_position_range w q = r := by
  unfold queue_position_range; rw [h]

theorem force_delete_ok_eq {w : Wal} {q : QueueId} {wal' : Wal}
    (h : w.force_delete_queue q = .ok wal') :
    wal' = { w with queues := eraseKey q w.queues } := by
  unfold Wal.force_delete_queue at h
  by_cases hio : q ∈ w.ioFailures
  · rw [if_pos hio] at h; cases h
  · rw [if_neg hio] at h
    exact (Except.ok.inj h).symm

theorem force_delete_spec (w : Wal) (q : QueueId) :
    (q ∈ w.ioFailures → w.force_delete_queue q = .error ())
    ∧ (q ∉ w.ioFailures →
        w.force_delete_queue q = .ok { w with queues := eraseKey q w.queues }) := by
  constructor
  · intro hio; unfold Wal.force_delete_queue; rw [if_pos hio]
  · intro hio; unfold Wal.force_delete_queue; rw [if_neg hio]

theorem init_step_nonempty {s : FullyLockedIngesterState} {q : QueueId}
    {f l : Nat} (hr : queue_position_range s.mrecordlog q = some (f, l)) :
    init_recover_step s q =
      { s with
        inner := { s.inner with
          shards := insertKey q
            (IngesterShard.new_solo ShardState.Closed (Position.offset l)
              (if f = 0 then Position.beginning else Position.offset (f - 1)))
            s.inner.shards,
          rate_trackers := insertKey q () s.inner.rate_trackers } } := by
  unfold init_recover_step
  rw [hr]

theorem init_step_empty_error {s : FullyLockedIngesterState} {q : QueueId}
    (hr : queue_position_range s.mrecordlog q = none)
    (hfd : s.mrecordlog.force_delete_queue q = .error ()) :
    init_recover_step s q = s := by
  unfold init_recover_step
  rw [hr, hfd]

theorem init_step_empty_ok {s : FullyLockedIngesterState} {q : QueueId}
    {wal' : Wal} (hr : queue_position_range s.mrecordlog q = none)
    (hfd : s.mrecordlog.force_delete_queue q = .ok wal') :
    init_recover_step s q = { s with mrecordlog := wal' } := by
  unfold init_recover_step
  rw [hr, hfd]

theorem init_step_ioFailures (s : FullyLockedIngesterState) (q0 : QueueId) :
    (init_recover_step s q0).mrecordlog.ioFailures
      = s.mrecordlog.ioFailures := by
  unfold init_recover_step
  cases hr : queue_position_range s.mrecordlog q0 with
  | some fl => obtain ⟨f, l⟩ := fl; rfl
  | none =>
    cases hfd : s.mrecordlog.force_delete_queue q0 with
    | error e => rfl
    | ok wal' => obtain rfl := force_delete_ok_eq hfd; rfl

theorem init_step_ne {s : FullyLockedIngesterState} {q0 q : QueueId}
    (hne : q ≠ q0) :
    lookupKey q (init_recover_step s q0).inner.shards
      = lookupKey q s.inner.shards
    ∧ lookupKey q (init_recover_step s q0).inner.rate_trackers
      = lookupKey q s.inner.rate_trackers
    ∧ lookupKey q (init_recover_step s q0).mrecordlog.queues
      = lookupKey q s.mrecordlog.queues := by
  cases hr : queue_position_range s.mrecordlog q0 with
  | some fl =>
    obtain ⟨f, l⟩ := fl
    rw [init_step_nonempty hr]
    exact ⟨lookup_insertKey_ne hne _ _, lookup_insertKey_ne hne _ _, rfl⟩
  | none =>
    cases hfd : s.mrecordlog.force_delete_queue q0 with
    | error e =>
      cases e
      rw [init_step_empty_error hr hfd]
      exact ⟨rfl, rfl, rfl⟩
    | ok wal' =>
      obtain rfl := force_delete_ok_eq hfd
      rw [init_step_empty_ok hr hfd]
      exact ⟨rfl, rfl, lookup_eraseKey_ne hne _⟩

theorem init_fold_ne (qs : List QueueId) :
    ∀ (s : FullyLockedIngesterState) (q : QueueId), q ∉ qs →
    lookupKey q (qs.foldl init_recover_step s).inner.shards
      = lookupKey q s.inner.shards
    ∧ lookupKey q (qs.foldl init_recover_step s).inner.rate_trackers
      = lookupKey q s.inner.rate_trackers
    ∧ lookupKey q (qs.foldl init_recover_step s).mrecordlog.queues
      = lookupKey q s.mrecordlog.queues := by
  induction qs with
  | nil => intro s q h; exact ⟨rfl, rfl, rfl⟩
  | cons q0 rest ih =>
    intro s q h
    have hne : q ≠ q0 := fun e => h (e ▸ List.mem_cons_self q0 rest)
    have hrest : q ∉ rest := fun hr => h (List.mem_cons_of_mem _ hr)
    obtain ⟨a, b, c⟩ := init_step_ne (s := s) hne
    obtain ⟨a', b', c'⟩ := ih (init_recover_step s q0) q hrest
    exact ⟨a'.trans a, b'.trans b, c'.trans c⟩

theorem init_fold_main (wal0 : Wal) :
    ∀ (qs : List QueueId) (s : FullyLockedIngesterState) (q : QueueId),
    qs.Nodup → q ∈ qs →
    lookupKey q s.mrecordlog.queues = lookupKey q wal0.queues →
    s.mrecordlog.ioFailures = wal0.ioFailures →
    lookupKey q s.inner.shards = none →
    (∀ f l, lookupKey q wal0.queues = some (some (f, l)) →
      lookupKey q (qs.foldl init_recover_step s).inner.shards
        = some (IngesterShard.new_solo ShardState.Closed (Position.offset l)
            (if f = 0 then Position.beginning else Position.offset (f - 1)))
      ∧ lookupKey q (qs.foldl init_recover_step s).inner.rate_trackers
        = some ())
    ∧ (lookupKey q wal0.queues = some none →
      lookupKey q (qs.foldl init_recover_step s).inner.shards = none
      ∧ (q ∈ wal0.ioFailures →
          lookupKey q (qs.foldl init_recover_step s).mrecordlog.queues
            = some none)
      ∧ (q ∉ wal0.ioFailures →
          lookupKey q (qs.foldl init_recover_step s).mrecordlog.queues
            = none)) := by
  intro qs
  induction qs with
  | nil => intro s q hnd hmem; cases hmem
  | cons q0 rest ih =>
    intro s q hnd hmem hsub hiof hsh
    have hnd' : rest.Nodup := (List.nodup_cons.mp hnd).2
    have hq0nr : q0 ∉ rest := (List.nodup_cons.mp hnd).1
    by_cases heq : q = q0
    · subst heq
      obtain ⟨hsf, htf, hwf⟩ :=
        init_fold_ne rest (init_recover_step s q) q hq0nr
      constructor
      · intro f l hq
        have hr : queue_position_range s.mrecordlog q = some (f, l) :=
          queue_position_range_eq (hsub.trans hq)
        have hstep := init_step_nonempty hr
        constructor
        · rw [show (q :: rest).foldl init_recover_step s
              = rest.foldl init_recover_step (init_recover_step s q)
              from rfl, hsf, hstep]
          exact lookup_insertKey_self q _ _
        · rw [show (q :: rest).foldl init_recover_step s
              = rest.foldl init_recover_step (init_recover_step s q)
              from rfl, htf, hstep]
          exact lookup_insertKey_self q _ _
      · intro hq
        have hr : queue_position_range s.mrecordlog q = none :=
          queue_position_range_eq (hsub.trans hq)
        by_cases hio : q ∈ wal0.ioFailures
        · have hio' : q ∈ s.mrecordlog.ioFailures := by rw [hiof]; exact hio
          have hfd := (force_delete_spec s.mrecordlog q).1 hio'
          have hstep : init_recover_step s q = s :=
            init_step_empty_error hr hfd
          refine ⟨?_, fun _ => ?_, fun hnio => absurd hio hnio⟩
          · rw [show (q :: rest).foldl init_recover_step s
                = rest.foldl init_recover_step (init_recover_step s q)
                from rfl, hsf, hstep]
            exact hsh
          · rw [show (q :: rest).foldl init_recover_step s
                = rest.foldl init_recover_step (init_recover_step s q)
                from rfl, hwf, hstep]
            exact hsub.trans hq
        · have hio' : q ∉ s.mrecordlog.ioFailures := by rw [hiof]; exact hio
          have hfd := (force_delete_spec s.mrecordlog q).2 hio'
          have hstep := init_step_empty_ok hr hfd
          refine ⟨?_, fun hcontra => absurd hcontra hio, fun _ => ?_⟩
          · rw [show (q :: rest).foldl init_recover_step s
                = rest.foldl init_recover_step (init_recover_step s q)
                from rfl, hsf, hstep]
            exact hsh
          · rw [show (q :: rest).foldl init_recover_step s
                = rest.foldl init_recover_step (init_recover_step s q)
                from rfl, hwf, hstep]
            exact lookup_eraseKey_self q _
    · have hmem' : q ∈ rest := by
        rcases List.mem_cons.mp hmem with h | h
        · exact absurd h heq
        · exact h
      obtain ⟨a, b, c⟩ := init_step_ne (s := s) heq
      exact ih (init_recover_step s q0) q hnd' hmem'
        (c.trans hsub) ((init_step_ioFailures s q0).trans hiof) (a.trans hsh)

/-- C4: during init recovery, every WAL queue with non-empty offset range
`[first, last]` is registered as a closed solo shard with
`replication_position_inclusive = Offset last` and
`truncation_position_inclusive = Beginning` when `first = 0` and
`Offset (first - 1)` otherwise, together with a fresh rate tracker; every
empty queue is instead force-deleted from the WAL, unless the deletion hits
an I/O error, in which case the queue is skipped and stays in the WAL; empty
queues are never registered. -/
theorem init_recovery_registers (wal0 : Wal)
    (hnd : (keysOf wal0.queues).Nodup) (q : QueueId) :
    (∀ f l, lookupKey q wal0.queues = some (some (f, l)) →
      lookupKey q (init_recovery wal0).inner.shards
        = some (IngesterShard.new_solo ShardState.Closed (Position.offset l)
            (if f = 0 then Position.beginning else Position.offset (f - 1)))
      ∧ lookupKey q (init_recovery wal0).inner.rate_trackers = some ())
    ∧ (lookupKey q wal0.queues = some none →
      lookupKey q (init_recovery wal0).inner.shards = none
      ∧ (q ∈ wal0.ioFailures →
          lookupKey q (init_recovery wal0).mrecordlog.queues = some none)
      ∧ (q ∉ wal0.ioFailures →
          lookupKey q (init_recovery wal0).mrecordlog.queues = none)) := by
  constructor
  · intro f l hq
    have hmem : q ∈ keysOf wal0.queues := lookup_mem_keys hq
    exact (init_fold_main wal0 (keysOf wal0.queues)
      { inner := { shards := [], rate_trackers := [], status := .Initializing },
        mrecordlog := wal0 } q hnd hmem rfl rfl rfl).1 f l hq
  · intro hq
    have hmem : q ∈ keysOf wal0.queues := lookup_mem_keys hq
    exact (init_fold_main wal0 (keysOf wal0.queues)
      { inner := { shards := [], rate_trackers := [], status := .Initializing },
        mrecordlog := wal0 } q hnd hmem rfl rfl rfl).2 hq

/-- Fixture for the C4 witness: one non-empty queue with offsets 3..=7 and
one empty queue. -/
def recoverWal : Wal :=
  { queues := [("idx:src:2", some (3, 7)), ("idx:src:3", none)],
    ioFailures := [] }

/-- C4 witness: recovery of the fixture registers the non-empty queue as a
closed solo shard at `Offset 7` with truncation `Offset 2`, and drops the
empty queue. -/
theorem init_recovery_registers_witness :
    lookupKey "idx:src:2" (init_recovery recoverWal).inner.shards
      = some (IngesterShard.new_solo ShardState.Closed (Position.offset 7)
          (if 3 = 0 then Position.beginning else Position.offset (3 - 1)))
    ∧ lookupKey "idx:src:3" (init_recovery recoverWal).inner.shards = none :=
  ⟨((init_recovery_registers recoverWal (by decide) "idx:src:2").1 3 7
      (by decide)).1,
   ((init_recovery_registers recoverWal (by decide) "idx:src:3").2
      (by decide)).1⟩

/-! C8: shape of the `inspect_shards` request. -/

/-- Grouping key of a `ShardIds` entry. -/
def entry_key (e : ShardIds) : String × String := (e.index_uid, e.source_id)

/-- All shard ids among the parsed entries that belong to one
`(index_uid, source_id)` pair, in key order. -/
def shard_ids_for (k : String × String)
    (entries : List ((String × String) × String)) : List String :=
  (entries.filter (fun pe => decide (pe.1 = k))).map Prod.snd

/-- Number of request entries carrying one `(index_uid, source_id)` pair. -/
def count_entries_for (k : String × String) (es : List ShardIds) : Nat :=
  (es.filter (fun e => decide (entry_key e = k))).length

theorem lookup_push_self (acc : List ((String × String) × List String))
    (k : String × String) (sid : String) :
    lookupKey k (push_shard_id acc k sid)
      = some (((lookupKey k acc).getD []) ++ [sid]) := by
  induction acc with
  | nil => simp [push_shard_id, lookupKey]
  | cons hd tl ih =>
    by_cases h : hd.1 = k
    · simp [push_shard_id, lookupKey, h]
    · simp [push_shard_id, lookupKey, h, ih]

theorem lookup_push_ne {k k' : String × String} (hne : k' ≠ k)
    (acc : List ((String × String) × List String)) (sid : String) :
    lookupKey k' (push_shard_id acc k sid) = lookupKey k' acc := by
  have hkk : k ≠ k' := fun h => hne h.symm
  induction acc with
  | nil => simp [push_shard_id, lookupKey, hkk]
  | cons hd tl ih =>
    by_cases h : hd.1 = k
    · have h' : hd.1 ≠ k' := by rw [h]; exact hkk
      simp [push_shard_id, lookupKey, h, h', hkk, ih]
    · by_cases h2 : hd.1 = k' <;>
        simp [push_shard_id, lookupKey, h, h2, hkk, hne, ih]

theorem shard_ids_for_cons (k : String × String)
    (e : (String × String) × String)
    (rest : List ((String × String) × String)) :
    shard_ids_for k (e :: rest)
      = if e.1 = k then e.2 :: shard_ids_for k rest
        else shard_ids_for k rest := by
  by_cases h : e.1 = k <;> simp [shard_ids_for, List.filter, h]

theorem lookup_group_fold (entries : List ((String × String) × String)) :
    ∀ (acc : List ((String × String) × List String)) (k : String × String),
    lookupKey k (entries.foldl (fun a e => push_shard_id a e.1 e.2) acc)
      = match lookupKey k acc with
        | some sids => some (sids ++ shard_ids_for k entries)
        | none =>
          if shard_ids_for k entries = [] then none
          else some (shard_ids_for k entries) := by
  induction entries with
  | nil =>
    intro acc k
    cases hacc : lookupKey k acc <;> simp [shard_ids_for, hacc]
  | cons e rest ih =>
    intro acc k
    have hfold : ((e :: rest).foldl (fun a x => push_shard_id a x.1 x.2) acc)
        = rest.foldl (fun a x => push_shard_id a x.1 x.2)
            (push_shard_id acc e.1 e.2) := rfl
    rw [hfold, ih (push_shard_id acc e.1 e.2) k, shard_ids_for_cons]
    by_cases hk : e.1 = k
    · subst hk
      rw [lookup_push_self acc e.1 e.2]
      cases hacc : lookupKey e.1 acc with
      | none => simp [hacc]
      | some sids => simp [hacc]
    · have hk' : k ≠ e.1 := fun h => hk h.symm
      rw [lookup_push_ne hk' acc e.2]
      simp [hk]

theorem keys_push (acc : List ((String × String) × List String))
    (k : String × String) (sid : String) :
    keysOf (push_shard_id acc k sid)
      = if k ∈ keysOf acc then keysOf acc else keysOf acc ++ [k] := by
  induction acc with
  | nil => simp [push_shard_id, keysOf]
  | cons hd tl ih =>
    by_cases h : hd.1 = k
    · simp [push_shard_id, keysOf, h]
    · have h' : ¬k = hd.1 := fun e => h e.symm
      have hkeys : keysOf (push_shard_id (hd :: tl) k sid)
          = hd.1 :: keysOf (push_shard_id tl k sid) := by
        simp [push_shard_id, h, keysOf]
      rw [hkeys, ih]
      by_cases hm : k ∈ keysOf tl
      · rw [if_pos hm, if_pos (show k ∈ keysOf (hd :: tl) from
          List.mem_cons_of_mem _ hm)]
        rfl
      · rw [if_neg hm, if_neg (show k ∉ keysOf (hd :: tl) from by
          intro hc
          rcases List.mem_cons.mp hc with hc1 | hc2
          · exact h' hc1
          · exact hm hc2)]
        rfl

theorem nodup_group_fold (entries : List ((String × String) × String)) :
    ∀ (acc : List ((String × String) × List String)),
    (keysOf acc).Nodup →
    (keysOf (entries.foldl (fun a e => push_shard_id a e.1 e.2) acc)).Nodup := by
  induction entries with
  | nil => intro acc h; exact h
  | cons e rest ih =>
    intro acc h
    refine ih (push_shard_id acc e.1 e.2) ?_
    rw [keys_push]
    by_cases hm : e.1 ∈ keysOf acc
    · simpa [hm] using h
    · simp only [hm, if_false]
      rw [List.nodup_append]
      exact ⟨h, List.nodup_singleton _, by
        intro a ha hb
        rw [List.mem_singleton] at hb
        subst hb
        exact hm ha⟩

theorem mem_lookup_of_nodup {κ α : Type} [DecidableEq κ]
    {l : List (κ × α)} (h : (keysOf l).Nodup) {e : κ × α} (he : e ∈ l) :
    lookupKey e.1 l = some e.2 := by
  induction l with
  | nil => cases he
  | cons hd tl ih =>
    have hcons : (hd.1 :: keysOf tl).Nodup := h
    have hnd := List.nodup_cons.mp hcons
    rcases List.mem_cons.mp he with rfl | htl
    · simp [lookupKey]
    · have hne : hd.1 ≠ e.1 := by
        intro heq
        apply hnd.1
        rw [heq]
        exact List.mem_map_of_mem Prod.fst htl
      simp only [lookupKey, hne, if_false]
      exact ih hnd.2 htl

theorem count_filter_key (k : String × String) :
    ∀ (l : List ((String × String) × List String)), (keysOf l).Nodup →
    (l.filter (fun g => decide (g.1 = k))).length
      = if lookupKey k l = none then 0 else 1 := by
  intro l
  induction l with
  | nil => intro h; simp [lookupKey]
  | cons hd tl ih =>
    intro h
    have hcons : (hd.1 :: keysOf tl).Nodup := h
    have hnd := List.nodup_cons.mp hcons
    by_cases hk : hd.1 = k
    · have hnone : tl.filter (fun g => decide (g.1 = k)) = [] := by
        rw [List.filter_eq_nil]
        intro g hg
        simp only [decide_eq_true_eq]
        intro heq
        apply hnd.1
        rw [hk, ← heq]
        exact List.mem_map_of_mem Prod.fst hg
      simp [List.filter, hk, hnone, lookupKey]
    · have hk' : ¬decide (hd.1 = k) = true := by simp [hk]
      simp only [List.filter, hk', lookupKey, hk, if_false]
      simpa using ih hnd.2

theorem lookup_group (entries : List ((String × String) × String))
    (k : String × String) :
    lookupKey k (group_shard_ids entries)
      = if shard_ids_for k entries = [] then none
        else some (shard_ids_for k entries) := by
  have h := lookup_group_fold entries [] k
  simpa [group_shard_ids] using h

theorem count_entries_map (k : String × String) :
    ∀ (groups : List ((String × String) × List String)),
    count_entries_for k (groups.map to_shard_ids_entry)
      = (groups.filter (fun g => decide (g.1 = k))).length := by
  intro groups
  induction groups with
  | nil => rfl
  | cons g rest ih =>
    have hek : entry_key (to_shard_ids_entry g) = g.1 := rfl
    by_cases hk : g.1 = k <;>
      simp [count_entries_for, List.filter, to_shard_ids_entry, entry_key,
        hk, ih, count_entries_for] <;>
      simpa [count_entries_for] using ih

/-- C8: the `inspect_shards` request built from the shard map has an empty
`shard_positions` vector in every entry, each entry lists exactly the shard
ids of the parseable keys of its `(index_uid, source_id)` pair, and the
request carries exactly one entry per `(index_uid, source_id)` pair that is
the pair of some parseable key — and no entry for any other pair; keys that
fail to parse are skipped. -/
theorem inspect_shards_request_shape
    (shards : List (QueueId × IngesterShard)) (k : String × String) :
    (∀ e ∈ (inspect_shards_request shards).shard_ids,
      e.shard_positions = ([] : List ShardIdPosition)
      ∧ e.shard_ids = shard_ids_for (entry_key e) (parsed_entries shards))
    ∧ count_entries_for k (inspect_shards_request shards).shard_ids
        = (if shard_ids_for k (parsed_entries shards) = [] then 0 else 1) := by
  have hnd : (keysOf (group_shard_ids (parsed_entries shards))).Nodup :=
    nodup_group_fold (parsed_entries shards) [] List.nodup_nil
  constructor
  · intro e he
    obtain ⟨g, hg, rfl⟩ := List.mem_map.mp he
    refine ⟨rfl, ?_⟩
    have hlk : lookupKey g.1 (group_shard_ids (parsed_entries shards))
        = some g.2 := mem_lookup_of_nodup hnd hg
    rw [lookup_group (parsed_entries shards) g.1] at hlk
    by_cases hnil : shard_ids_for g.1 (parsed_entries shards) = []
    · rw [if_pos hnil] at hlk; cases hlk
    · rw [if_neg hnil] at hlk
      have hval := Option.some.inj hlk
      show g.2 = shard_ids_for (entry_key (to_shard_ids_entry g))
        (parsed_entries shards)
      rw [show entry_key (to_shard_ids_entry g) = g.1 from rfl]
      exact hval.symm
  · rw [show (inspect_shards_request shards).shard_ids
        = (group_shard_ids (parsed_entries shards)).map to_shard_ids_entry
        from rfl]
    rw [count_entries_map k, count_filter_key k _ hnd,
      lookup_group (parsed_entries shards) k]
    by_cases hnil : shard_ids_for k (parsed_entries shards) = []
    · simp [hnil]
    · simp [hnil]

/-- Fixture for the C8 witness: two parseable keys of the same source and one
unparseable key. -/
def inspect_fixture : List (QueueId × IngesterShard) :=
  [("idx:src:1", sampleShard), ("idx:src:2", sampleShard),
   ("badqueue", sampleShard)]

/-- Expected single request entry for the fixture. -/
def inspect_fixture_entry : ShardIds :=
  { index_uid := "idx", source_id := "src", shard_ids := ["1", "2"],
    shard_positions := [] }

/-- C8 witness: on the fixture the request has exactly one entry for
`("idx", "src")`, that entry has no positions and lists the two parsed shard
ids. -/
theorem inspect_shards_request_shape_witness :
    (inspect_fixture_entry.shard_positions = ([] : List ShardIdPosition)
    ∧ inspect_fixture_entry.shard_ids
      = shard_ids_for (entry_key inspect_fixture_entry)
          (parsed_entries inspect_fixture))
    ∧ count_entries_for ("idx", "src")
        (inspect_shards_request inspect_fixture).shard_ids
      = (if shard_ids_for ("idx", "src") (parsed_entries inspect_fixture) = []
        then 0 else 1) :=
  ⟨(inspect_shards_request_shape inspect_fixture ("idx", "src")).1
      inspect_fixture_entry (by decide),
   (inspect_shards_request_shape inspect_fixture ("idx", "src")).2⟩

end QuickwitIngest
